import Mathlib

/-!
Verification of the steamsync shortcut-merge engine
(`steamsync-library/src/steamsync.py`).

The development shallowly embeds the parts of `steamsync.py` that the
properties below are about:

* the decoded `shortcuts.vdf` store (`Store`): the inner
  `shortcuts["shortcuts"]` object produced by `vdf.binary_load`, an
  insertion-ordered mapping from string indices to field maps;
* `to_shortcut` (steamsync.py:293-319);
* `add_games_to_shortcut_file` (steamsync.py:322-464), split into the pure
  merge loop (`runMerge`, lines 376-439) and the surrounding file handling,
  whose filesystem effects are reified as a `FileOp` list;
* `filter_games` (steamsync.py:228-249), `prompt_for_steam_account`
  (steamsync.py:256-290) and the account-resolution section of `main`
  (steamsync.py:507-534, 556-568), with interactive `input()` calls turned
  into explicit string parameters.

Python-specific behaviour is modelled explicitly: dict insertion-order
update (`setKey`, `assocSet`), truthiness of values (`truthy`), negative
list indexing and `IndexError` (`pyIndex`), `int()` parsing failure
(`pyToInt`), and `str(n)` printing (`Nat.repr`).
-/

/-- A decoded VDF value as it appears in a shortcut entry: a string, an
integer, or a nested string-to-string map (the `tags` block written by
`to_shortcut`). -/
inductive VdfValue where
  | str (s : String)
  | int (n : Int)
  | map (m : List (String × String))
deriving DecidableEq, Repr

/-- One shortcut entry: an insertion-ordered field map, as decoded by
`vdf.binary_load`. -/
abbrev Entry := List (String × VdfValue)

/-- The decoded `shortcuts["shortcuts"]` object: an insertion-ordered
mapping from string indices to entries. -/
abbrev Store := List (String × Entry)

/-- Python truthiness of a decoded VDF value (`if not exe:` checks). -/
def truthy : VdfValue → Bool
  | .str s => s ≠ ""
  | .int n => n ≠ 0
  | .map m => ¬ m.isEmpty

/-- `d.get(k)` on an entry: first binding of `k`, if any. -/
def dictGet (e : Entry) (k : String) : Option VdfValue :=
  match e with
  | [] => none
  | p :: rest => if p.1 = k then some p.2 else dictGet rest k

/-- The launch target of an existing entry, exactly as computed at
steamsync.py:384-392: `exe = v.get("Exe"); if not exe: exe = v.get("exe");
if not exe: <malformed>`.  Returns `none` for a malformed entry. -/
def entryExe (e : Entry) : Option VdfValue :=
  let exe : Option VdfValue :=
    match dictGet e "Exe" with
    | some v => if truthy v then some v else dictGet e "exe"
    | none => dictGet e "exe"
  match exe with
  | some v => if truthy v then some v else none
  | none => none

/-- Python dict assignment `m[k] = v` on an association list: update in
place if the key exists (keeping its position), append otherwise. -/
def assocSet : List (VdfValue × String) → VdfValue → String → List (VdfValue × String)
  | [], k, v => [(k, v)]
  | p :: rest, k, v => if p.1 = k then (k, v) :: rest else p :: assocSet rest k v

/-- Python `m.get(k)` on an association list. -/
def assocGet : List (VdfValue × String) → VdfValue → Option String
  | [], _ => none
  | p :: rest, k => if p.1 = k then some p.2 else assocGet rest k

/-- `path_to_index` construction (steamsync.py:376-393): walk the store in
order and record `path_to_index[exe] = k` for every entry whose launch
target is recognizable; later entries overwrite earlier ones. -/
def buildIndexAux (m : List (VdfValue × String)) : Store → List (VdfValue × String)
  | [] => m
  | kv :: rest =>
      buildIndexAux
        (match entryExe kv.2 with
         | some exe => assocSet m exe kv.1
         | none => m)
        rest

/-- The `path_to_index` mapping built from a store. -/
def buildIndex (s : Store) : List (VdfValue × String) :=
  buildIndexAux [] s

/-- Keys of the malformed entries, in store order: the entries for which
steamsync.py:388-392 prints the "no `Exe` field" warning. -/
def malformedKeys (s : Store) : List String :=
  (s.filter (fun kv => (entryExe kv.2).isNone)).map Prod.fst

/-- Python dict assignment `shortcuts["shortcuts"][k] = e`: replace in
place when the key exists, append otherwise. -/
def setKey : Store → String → Entry → Store
  | [], k, e => [(k, e)]
  | kv :: rest, k, e => if kv.1 = k then (k, e) :: rest else kv :: setKey rest k e

/-- The keys of a store, in order. -/
def keys (s : Store) : List String :=
  s.map Prod.fst

/-- One discovered game.  The constructor shape follows the seven
positional arguments used at steamsync.py:192-202 and 397-405
(`defs.GameDefinition` itself lives outside the packaged source; its field
set is fixed by those call sites, by `to_shortcut`, and by spec §3's
GameRecord, which adds the `icon` field read at steamsync.py:308). -/
structure GameDefinition where
  executable_path : String
  display_name : String
  app_name : String
  install_folder : String
  launch_arguments : String
  uri : Option String
  storetag : String
  icon : String
deriving DecidableEq, Repr

/-- `game.uri if use_uri and game.uri else game.executable_path`
(steamsync.py:299-302 and 426): the identity key the merge uses for a
selected record. -/
def effectiveTarget (game : GameDefinition) (use_uri : Bool) : String :=
  if use_uri then
    match game.uri with
    | some u => if u ≠ "" then u else game.executable_path
    | none => game.executable_path
  else game.executable_path

/-- `to_shortcut` (steamsync.py:293-319): the freshly built entry for a
selected record. -/
def to_shortcut (game : GameDefinition) (use_uri : Bool) : Entry :=
  [("appname", .str game.display_name),
   ("Exe", .str (effectiveTarget game use_uri)),
   ("StartDir", .str game.install_folder),
   ("icon", .str game.icon),
   ("ShortcutPath", .str ""),
   ("LaunchOptions", .str game.launch_arguments),
   ("IsHidden", .int 0),
   ("AllowDesktopConfig", .int 1),
   ("AllowOverlay", .int 1),
   ("openvr", .int 0),
   ("Devkit", .int 0),
   ("DevkitGameID", .str ""),
   ("LastPlayTime", .int 0),
   ("tags", .map [("0", "steamsync"), ("1", game.storetag)])]

/-- Decimal value of a digit character, `none` for a non-digit. -/
def digitVal (c : Char) : Option Nat :=
  if c.isDigit then some (c.toNat - 48) else none

/-- Left-to-right accumulation of a digit string's value. -/
def digitsToNatAux : List Char → Nat → Option Nat
  | [], acc => some acc
  | c :: cs, acc =>
      match digitVal c with
      | some d => digitsToNatAux cs (acc * 10 + d)
      | none => none

/-- Value of a nonempty all-digit character list, `none` otherwise. -/
def digitsToNat : List Char → Option Nat
  | [] => none
  | c :: cs => digitsToNatAux (c :: cs) 0

/-- Python `int(k)` on a store index key, restricted to the plain digit
strings the shortcut-store format uses (Python would additionally accept
sign and whitespace; no store written by the engine contains such keys). -/
def parseIndex (s : String) : Option Nat :=
  digitsToNat s.data

/-- Numeric value of a store key, defaulting to `0`.  Theorems that depend
on index arithmetic carry a `NumericKeys` hypothesis, under which this
agrees with Python's `int(idx)` (which raises on a non-numeric key). -/
def keyVal (k : String) : Nat :=
  (parseIndex k).getD 0

/-- Every key of the store is a plain digit string, as the
`shortcuts.vdf` format guarantees (spec §3). -/
def NumericKeys (s : Store) : Prop :=
  ∀ kv ∈ s, (parseIndex kv.1).isSome

instance (s : Store) : Decidable (NumericKeys s) := by
  unfold NumericKeys; infer_instance

/-- `last_index` computation (steamsync.py:416-422): `0` for an empty
store, otherwise the maximum numeric value of the keys. -/
def lastIndex (s : Store) : Nat :=
  if s.isEmpty then 0
  else (s.map (fun kv => keyVal kv.1)).foldl max 0

/-- The mutable state of the merge loop at steamsync.py:424-439. -/
structure LoopState where
  store : Store
  added : Nat
  last_index : Nat
  game_results : List String
deriving DecidableEq, Repr

/-- The skip message built at steamsync.py:433. -/
def skipMsg (game : GameDefinition) : String :=
  game.display_name ++ ": Not creating shortcut since it already has one"

/-- Append a fresh entry at the next free index (steamsync.py:437-438). -/
def insertStep (st : LoopState) (game : GameDefinition) (use_uri : Bool) : LoopState :=
  { st with
    store := setKey st.store (Nat.repr (st.last_index + 1)) (to_shortcut game use_uri),
    added := st.added + 1,
    last_index := st.last_index + 1 }

/-- One iteration of the merge loop (steamsync.py:425-439).  `i` is the
result of `path_to_index.get(shortcut, None)`; the `if i:` test is
Python truthiness, so a found-but-empty key also falls through to the
insertion path. -/
def mergeStep (pti : List (VdfValue × String)) (use_uri replace_existing : Bool)
    (st : LoopState) (game : GameDefinition) : LoopState :=
  let shortcut := effectiveTarget game use_uri
  match assocGet pti (.str shortcut) with
  | some i =>
      if i ≠ "" then
        if replace_existing then
          { st with store := setKey st.store i (to_shortcut game use_uri),
                    added := st.added + 1 }
        else
          { st with game_results := st.game_results ++ [skipMsg game] }
      else insertStep st game use_uri
  | none => insertStep st game use_uri

/-- The whole merge loop (steamsync.py:376-439): build `path_to_index`
from the store read from disk, then fold the loop body over the selected
games. -/
def runMerge (store : Store) (games : List GameDefinition)
    (use_uri replace_existing : Bool) : LoopState :=
  games.foldl (mergeStep (buildIndex store) use_uri replace_existing)
    { store := store, added := 0, last_index := lastIndex store, game_results := [] }

/-- A filesystem effect of `add_games_to_shortcut_file`, reified. -/
inductive FileOp where
  | remove (path : String)
  | rename (src dst : String)
  | write (path : String)
deriving DecidableEq, Repr

/-- The abort message built at steamsync.py:364. -/
def notFoundMsg (path : String) : String :=
  "Could not find shortcuts file at `" ++ path ++
    "` \n Make a shortcut in Steam (Library -> + Add Game -> Add a Non-Steam Game...) first. Aborting."

/-- The no-op message built at steamsync.py:443. -/
def noopMsg : String :=
  "No need to update `shortcuts.vdf` - nothing new to add"

/-- Everything observable about one `add_games_to_shortcut_file` call:
its return value (`result`/`error`, the `(game_results, added), error`
pair of the Python function), the final in-memory store, the filesystem
operations performed, and the malformed-entry warnings printed. -/
structure MergeOutcome where
  result : Option (List String × Nat)
  error : Option String
  added : Nat
  store : Store
  ops : List FileOp
  warnings : List String
deriving DecidableEq, Repr

/-- `add_games_to_shortcut_file` (steamsync.py:322-464).  `store_exists`
models `os.path.exists(shortcut_file_path)`; `store` is the decoded
contents when it exists; `timestamp` is the `time.strftime` value used in
the backup name.  Art download (`download_art_unsupported`) only issues
cache requests and never touches the store or the merge, so it is not
modelled. -/
def add_games_to_shortcut_file (store_exists : Bool) (store : Store)
    (games : List GameDefinition) (skip_backup use_uri replace_existing : Bool)
    (shortcut_file_path timestamp : String) : MergeOutcome :=
  if store_exists then
    let st := runMerge store games use_uri replace_existing
    if st.added = 0 then
      { result := none, error := some noopMsg, added := st.added,
        store := st.store, ops := [], warnings := malformedKeys store }
    else
      { result := some (st.game_results, st.added), error := none,
        added := st.added, store := st.store,
        ops := (if skip_backup then [FileOp.remove shortcut_file_path]
                else [FileOp.rename shortcut_file_path
                        (shortcut_file_path ++ "-" ++ timestamp ++ ".bak")])
               ++ [FileOp.write shortcut_file_path],
        warnings := malformedKeys store }
  else
    { result := none, error := some (notFoundMsg shortcut_file_path), added := 0,
      store := store, ops := [], warnings := [] }

/-- The tail of `main` (steamsync.py:556-568): the merge outcome is
computed and then discarded — `main` prints "Done." and returns `0`
regardless of the merge's error component. -/
def main_after_merge (store_exists : Bool) (store : Store)
    (games : List GameDefinition) (skip_backup use_uri replace_existing : Bool)
    (shortcut_file_path timestamp : String) : Int :=
  let _outcome := add_games_to_shortcut_file store_exists store games
    skip_backup use_uri replace_existing shortcut_file_path timestamp
  0

/-- The module level call `main()` at steamsync.py:571-572: the return
value of `main` is not passed to `sys.exit`, so the interpreter exits
with status `0` whenever `main` returns at all. -/
def script_exit (mainReturn : Int) : Nat :=
  let _ := mainReturn
  0

/-- Python `str.strip()` (whitespace at both ends). -/
def stripChars (cs : List Char) : List Char :=
  ((cs.dropWhile Char.isWhitespace).reverse.dropWhile Char.isWhitespace).reverse

/-- Python `str.strip()` on a string. -/
def pyStrip (s : String) : String :=
  ⟨stripChars s.data⟩

/-- Python `str.split(",")` on a character list: every comma separates,
empty pieces included, and `"".split(",") == [""]`. -/
def splitCommasChars : List Char → List (List Char)
  | [] => [[]]
  | c :: rest =>
      let r := splitCommasChars rest
      if c = ',' then [] :: r
      else
        match r with
        | h :: t => (c :: h) :: t
        | [] => [[c]]

/-- Python `str.split(",")`. -/
def splitCommas (s : String) : List String :=
  (splitCommasChars s.data).map String.mk

/-- Python `int(s)`: strip whitespace, optional sign, then at least one
digit; `none` models the `ValueError` raised otherwise.  (Underscore
grouping and non-ASCII digits are not modelled; no claim depends on
them.) -/
def pyToInt (s : String) : Option Int :=
  match stripChars s.data with
  | '-' :: rest => (digitsToNat rest).map (fun n => -(n : Int))
  | '+' :: rest => (digitsToNat rest).map (fun n => (n : Int))
  | cs => (digitsToNat cs).map (fun n => (n : Int))

/-- Python list indexing `xs[n]`: negative indices count from the end;
`none` models the `IndexError` raised when the index is out of range. -/
def pyIndex {α : Type} (xs : List α) (n : Int) : Option α :=
  if 0 ≤ n then xs.get? n.toNat
  else if (xs.length : Int) + n < 0 then none
  else xs.get? ((xs.length : Int) + n).toNat

/-- A Steam account as enumerated by `steameditor.SteamDatabase`
(read-only data carrier; only the two fields steamsync.py reads). -/
structure SteamAccount where
  steamid : String
  username : String
deriving DecidableEq, Repr

/-- Observable outcome of one `filter_games` call. -/
inductive FilterResult where
  /-- A game list was returned. -/
  | ok (gs : List GameDefinition)
  /-- `None` was returned after the `ValueError` handler: the caller's
  `while not picks` loop re-prompts. -/
  | invalid
  /-- An uncaught `IndexError` escaped `filter_games`: fatal. -/
  | indexError
deriving DecidableEq, Repr

/-- The selection loop of `filter_games` (steamsync.py:239-247): tokens
are processed left to right; a non-numeric token triggers the
`ValueError` handler (return `None`), an out-of-range index raises an
uncaught `IndexError`. -/
def pickLoop (games : List GameDefinition) : List String → FilterResult
  | [] => .ok []
  | tok :: rest =>
      match pyToInt (pyStrip tok) with
      | none => .invalid
      | some n =>
          match pyIndex games (n - 1) with
          | none => .indexError
          | some g =>
              match pickLoop games rest with
              | .ok gs => .ok (g :: gs)
              | r => r

/-- `filter_games` (steamsync.py:228-249), with the `input()` result
passed in as `selection`. -/
def filter_games (games : List GameDefinition) (selection : String) : FilterResult :=
  let sel := pyStrip selection
  if sel = "" then .ok games
  else pickLoop games (splitCommas sel)

/-- Observable outcome of one `prompt_for_steam_account` call. -/
inductive PromptResult where
  /-- A steamid string was returned. -/
  | id (s : String)
  /-- `None` was returned: the caller's `while not steamid` loop
  re-prompts. -/
  | retry
  /-- An uncaught `IndexError` escaped the function: fatal. -/
  | indexError
deriving DecidableEq, Repr

/-- `prompt_for_steam_account` (steamsync.py:256-290), with the
`input()` result passed in as `choice`.  With a single account the
function returns before ever reading input; with no accounts at all the
prompt string itself (`accounts[0].username`) raises. -/
def prompt_for_steam_account (accounts : List SteamAccount) (choice : String) :
    PromptResult :=
  match accounts with
  | [a] => .id a.steamid
  | [] => .indexError
  | _ =>
      let c := pyStrip choice
      if c = "" then
        match accounts.head? with
        | some a => .id a.steamid
        | none => .indexError
      else if accounts.any (fun a => a.steamid = c) then .id c
      else
        match pyToInt c with
        | some idx =>
            if idx ≤ (accounts.length : Int) then
              match pyIndex accounts (idx - 1) with
              | some a => .id a.steamid
              | none => .indexError
            else .retry
        | none => .retry

/-- Python `str.isdigit()` (restricted to ASCII digits). -/
def isdigit (s : String) : Bool :=
  ¬ s.data.isEmpty && s.data.all Char.isDigit

/-- The username-to-steamid rewriting in `main` (steamsync.py:513-527):
a non-digit, non-blank `--steamid` is treated as a username; the last
matching account wins; a failed lookup resets the id to blank to trigger
interactive selection. -/
def lookup_username (accounts : List SteamAccount) (steamid0 : String) : String :=
  if ¬ isdigit steamid0 ∧ steamid0 ≠ "" then
    let username := steamid0
    let sid := accounts.foldl
      (fun s a => if username = a.username then a.steamid else s) steamid0
    if username = sid then "" else sid
  else steamid0

/-- Outcome of the `while not steamid` prompt loop in `main`
(steamsync.py:529-532), driven by a list of modelled `input()` values. -/
inductive PromptLoopOut where
  /-- The loop ended with this steamid. -/
  | found (s : String)
  /-- An `IndexError` escaped `prompt_for_steam_account`: fatal. -/
  | crash
  /-- The modelled input list ran out while the loop was still going. -/
  | exhausted
deriving DecidableEq, Repr

/-- The `while not steamid: steamid = prompt_for_steam_account(accounts)`
loop (steamsync.py:530-532). -/
def promptLoop (accounts : List SteamAccount) : List String → PromptLoopOut
  | [] => .exhausted
  | c :: rest =>
      match prompt_for_steam_account accounts c with
      | .id s => if s = "" then promptLoop accounts rest else .found s
      | .retry => promptLoop accounts rest
      | .indexError => .crash

/-- Observable outcome of `main`'s account resolution. -/
inductive MainResolve where
  /-- `user = next(...)` found this account. -/
  | user (a : SteamAccount)
  /-- `next(...)` at steamsync.py:534 found no account with the resolved
  steamid and raised an uncaught `StopIteration`: fatal. -/
  | stopIteration
  /-- An `IndexError` escaped the prompt: fatal. -/
  | crash
  /-- The modelled input list ran out. -/
  | pending
deriving DecidableEq, Repr

/-- Account resolution in `main` (steamsync.py:507-534): username
rewriting, the interactive prompt loop when the id is blank, then
`user = next(user for user in accounts if user.steamid == steamid)`. -/
def resolve_account (accounts : List SteamAccount) (steamid_arg : String)
    (choices : List String) : MainResolve :=
  let sid := lookup_username accounts steamid_arg
  if sid = "" then
    match promptLoop accounts choices with
    | .found s =>
        match accounts.find? (fun a => a.steamid = s) with
        | some a => .user a
        | none => .stopIteration
    | .crash => .crash
    | .exhausted => .pending
  else
    match accounts.find? (fun a => a.steamid = sid) with
    | some a => .user a
    | none => .stopIteration

/-! ### Decimal printing round-trip

`str(last_index)` is `Nat.repr`; freshness of appended store keys rests on
the fact that parsing a printed index gives the index back. -/

theorem digitVal_digitChar (n : Nat) (h : n < 10) :
    digitVal (Nat.digitChar n) = some n := by
  interval_cases n <;> decide

theorem digitsToNatAux_toDigitsCore (n : Nat) :
    ∀ fuel, n < fuel → ∀ ds a, ∃ p,
      digitsToNatAux (Nat.toDigitsCore 10 fuel n ds) a = digitsToNatAux ds (a * p + n) := by
  induction n using Nat.strong_induction_on with
  | _ n ih =>
    intro fuel hf ds a
    cases fuel with
    | zero => omega
    | succ fuel =>
      by_cases h10 : n / 10 = 0
      · have hn : n < 10 := by omega
        refine ⟨10, ?_⟩
        rw [Nat.toDigitsCore]
        simp only [h10, if_pos]
        have hmod : n % 10 = n := Nat.mod_eq_of_lt hn
        rw [hmod, digitsToNatAux, digitVal_digitChar n hn]
      · have hpos : 0 < n := by omega
        have hlt : n / 10 < n := Nat.div_lt_self hpos (by norm_num)
        have hfuel : n / 10 < fuel := by omega
        obtain ⟨p, hp⟩ := ih (n / 10) hlt fuel hfuel (Nat.digitChar (n % 10) :: ds) a
        refine ⟨p * 10, ?_⟩
        rw [Nat.toDigitsCore]
        simp only [h10, if_neg, ite_false]
        rw [hp]
        have hm : n % 10 < 10 := Nat.mod_lt _ (by norm_num)
        simp only [digitsToNatAux, digitVal_digitChar _ hm]
        congr 1
        have hdm : n / 10 * 10 + n % 10 = n := by omega
        calc (a * p + n / 10) * 10 + n % 10
            = a * (p * 10) + (n / 10 * 10 + n % 10) := by ring
          _ = a * (p * 10) + n := by rw [hdm]

theorem toDigitsCore_ne_nil_of_ne_nil :
    ∀ fuel n (ds : List Char), ds ≠ [] → Nat.toDigitsCore 10 fuel n ds ≠ [] := by
  intro fuel
  induction fuel with
  | zero => intro n ds h; exact h
  | succ fuel ih =>
      intro n ds h
      rw [Nat.toDigitsCore]
      by_cases h10 : n / 10 = 0
      · simp [h10]
      · simp only [h10, ite_false]
        exact ih (n / 10) (Nat.digitChar (n % 10) :: ds) (by simp)

theorem toDigits_ne_nil (n : Nat) : Nat.toDigits 10 n ≠ [] := by
  rw [Nat.toDigits, Nat.toDigitsCore]
  by_cases h10 : n / 10 = 0
  · simp [h10]
  · simp only [h10, ite_false]
    exact toDigitsCore_ne_nil_of_ne_nil n (n / 10) _ (by simp)

theorem parseIndex_repr (n : Nat) : parseIndex (Nat.repr n) = some n := by
  have hdata : (Nat.repr n).data = Nat.toDigits 10 n := rfl
  rw [parseIndex, hdata]
  obtain ⟨p, hp⟩ := digitsToNatAux_toDigitsCore n (n + 1) (Nat.lt_succ_self n) [] 0
  cases hcs : Nat.toDigits 10 n with
  | nil => exact absurd hcs (toDigits_ne_nil n)
  | cons c cs =>
      rw [Nat.toDigits] at hcs
      rw [hcs] at hp
      rw [digitsToNat, hp]
      simp [digitsToNatAux]

theorem repr_ne_empty (n : Nat) : Nat.repr n ≠ "" := by
  intro h
  have := parseIndex_repr n
  rw [h] at this
  simp [parseIndex, digitsToNat] at this

theorem repr_inj {a b : Nat} (h : Nat.repr a = Nat.repr b) : a = b := by
  have ha := parseIndex_repr a
  rw [h, parseIndex_repr b] at ha
  exact (Option.some_inj.mp ha).symm

/-! ### `last_index` is the maximum numeric key -/

theorem le_foldl_max (l : List Nat) (a : Nat) : a ≤ l.foldl max a := by
  induction l generalizing a with
  | nil => exact Nat.le_refl a
  | cons x xs ih => exact le_trans (Nat.le_max_left a x) (ih (max a x))

theorem mem_le_foldl_max (l : List Nat) (a : Nat) : ∀ x ∈ l, x ≤ l.foldl max a := by
  induction l generalizing a with
  | nil => intro x hx; cases hx
  | cons y ys ih =>
      intro x hx
      rcases List.mem_cons.mp hx with h | h
      · subst h
        exact le_trans (Nat.le_max_right a x) (le_foldl_max ys (max a x))
      · exact ih (max a y) x h

theorem foldl_max_mem (l : List Nat) (a : Nat) : l.foldl max a = a ∨ l.foldl max a ∈ l := by
  induction l generalizing a with
  | nil => exact Or.inl rfl
  | cons x xs ih =>
      rcases ih (max a x) with h | h
      · rcases le_total a x with hm | hm
        · exact Or.inr (by rw [List.foldl, h, max_eq_right hm]; exact List.mem_cons_self x xs)
        · exact Or.inl (by rw [List.foldl, h, max_eq_left hm])
      · exact Or.inr (List.mem_cons_of_mem x h)

theorem keyVal_le_lastIndex (s : Store) (kv : String × Entry) (h : kv ∈ s) :
    keyVal kv.1 ≤ lastIndex s := by
  have hne : ¬ s.isEmpty := by
    cases s with
    | nil => cases h
    | cons x xs => simp [List.isEmpty]
  rw [lastIndex, if_neg hne]
  exact mem_le_foldl_max _ 0 _
    (List.mem_map_of_mem (fun p : String × Entry => keyVal p.1) h)

theorem lastIndex_mem (s : Store) (hne : s ≠ []) :
    ∃ kv ∈ s, keyVal kv.1 = lastIndex s := by
  have hne' : ¬ s.isEmpty := by
    cases s with
    | nil => exact absurd rfl hne
    | cons x xs => simp [List.isEmpty]
  rw [lastIndex, if_neg hne']
  rcases foldl_max_mem (s.map (fun p : String × Entry => keyVal p.1)) 0 with h | h
  · cases s with
    | nil => exact absurd rfl hne
    | cons x xs =>
        refine ⟨x, List.mem_cons_self x xs, ?_⟩
        have hle : keyVal x.1 ≤
            ((x :: xs).map (fun p : String × Entry => keyVal p.1)).foldl max 0 :=
          mem_le_foldl_max _ 0 _
            (List.mem_map_of_mem (fun p : String × Entry => keyVal p.1)
              (List.mem_cons_self x xs))
        omega
  · obtain ⟨kv, hmem, hval⟩ := List.mem_map.mp h
    exact ⟨kv, hmem, hval⟩

/-- Fresh keys: `str(m)` for `m` above `last_index` is not a key of the
store, whatever the store's keys are (a key equal to `str(m)` would parse
back to `m`). -/
theorem repr_fresh (s : Store) (m : Nat) (h : lastIndex s < m) : Nat.repr m ∉ keys s := by
  intro hmem
  obtain ⟨kv, hkv, hfst⟩ := List.mem_map.mp hmem
  have hv : keyVal kv.1 = m := by rw [hfst, keyVal, parseIndex_repr]; rfl
  have hle := keyVal_le_lastIndex s kv hkv
  omega

/-! ### `setKey` (Python dict assignment) -/

theorem setKey_of_not_mem (s : Store) (k : String) (e : Entry) (h : k ∉ keys s) :
    setKey s k e = s ++ [(k, e)] := by
  induction s with
  | nil => rfl
  | cons kv rest ih =>
      have hne : kv.1 ≠ k := by
        intro he
        exact h (List.mem_map.mpr ⟨kv, List.mem_cons_self kv rest, he⟩)
      rw [setKey, if_neg hne, List.cons_append]
      congr 1
      refine ih (fun hm => h ?_)
      obtain ⟨kv', hkv', hfst⟩ := List.mem_map.mp hm
      exact List.mem_map.mpr ⟨kv', List.mem_cons_of_mem kv hkv', hfst⟩

theorem keys_setKey_of_mem (s : Store) (k : String) (e : Entry) (h : k ∈ keys s) :
    keys (setKey s k e) = keys s := by
  induction s with
  | nil => cases h
  | cons kv rest ih =>
      by_cases hk : kv.1 = k
      · rw [setKey, if_pos hk]
        simp [keys, hk]
      · have hmem : k ∈ keys rest := by
          rcases List.mem_map.mp h with ⟨kv', hkv', hfst⟩
          rcases List.mem_cons.mp hkv' with h1 | h1
          · exact absurd (h1 ▸ hfst) hk
          · exact List.mem_map.mpr ⟨kv', h1, hfst⟩
        have ih' := ih hmem
        rw [setKey, if_neg hk]
        simp only [keys, List.map_cons]
        simp only [keys] at ih'
        rw [ih']

theorem setKey_get?_of_ne (s : Store) (k : String) (e : Entry) (p : Nat)
    (k₀ : String) (e₀ : Entry) (hp : s.get? p = some (k₀, e₀)) (hne : k₀ ≠ k) :
    (setKey s k e).get? p = some (k₀, e₀) := by
  induction s generalizing p with
  | nil => cases p <;> cases hp
  | cons kv rest ih =>
      by_cases hk : kv.1 = k
      · rw [setKey, if_pos hk]
        cases p with
        | zero =>
            rw [List.get?] at hp
            have hkv : kv = (k₀, e₀) := by injection hp
            have : k₀ = k := by rw [← hk, hkv]
            exact absurd this hne
        | succ q => rw [List.get?] at hp ⊢; exact hp
      · rw [setKey, if_neg hk]
        cases p with
        | zero => rw [List.get?] at hp ⊢; exact hp
        | succ q => rw [List.get?] at hp ⊢; exact ih q hp

/-! ### `path_to_index` characterization

`path_to_index` maps a launch target to the key of the *last* entry in
store order carrying that target. -/

/-- The key of the last entry in store order whose launch target is `v`. -/
def lastKeyExe : Store → VdfValue → Option String
  | [], _ => none
  | kv :: rest, v =>
      match lastKeyExe rest v with
      | some k => some k
      | none => if entryExe kv.2 = some v then some kv.1 else none

theorem assocGet_assocSet (m : List (VdfValue × String)) (k : VdfValue) (v : String)
    (q : VdfValue) :
    assocGet (assocSet m k v) q = if q = k then some v else assocGet m q := by
  induction m with
  | nil =>
      by_cases h : q = k
      · simp [assocSet, assocGet, h]
      · simp [assocSet, assocGet, h, Ne.symm h]
  | cons p rest ih =>
      by_cases hpk : p.1 = k
      · by_cases hq : q = k
        · simp [assocSet, assocGet, hpk, hq]
        · have hpq : p.1 ≠ q := by rw [hpk]; exact Ne.symm hq
          simp [assocSet, assocGet, hpk, hq, Ne.symm hq, hpq]
      · by_cases hpq : p.1 = q
        · have hqk : ¬ q = k := fun hh => hpk (by rw [hpq, hh])
          simp [assocSet, assocGet, hpk, hpq, hqk]
        · simp [assocSet, assocGet, hpk, hpq, ih]

theorem assocGet_buildIndexAux (s : Store) :
    ∀ (m : List (VdfValue × String)) (v : VdfValue),
      assocGet (buildIndexAux m s) v =
        match lastKeyExe s v with
        | some k => some k
        | none => assocGet m v := by
  induction s with
  | nil => intro m v; rfl
  | cons kv rest ih =>
      intro m v
      simp only [buildIndexAux, lastKeyExe, ih]
      cases hexe : entryExe kv.2 with
      | some exe =>
          cases hrest : lastKeyExe rest v with
          | some k => rfl
          | none =>
              simp only [assocGet_assocSet]
              by_cases hv : v = exe
              · simp [hv]
              · have hv2 : ¬ exe = v := fun hh => hv hh.symm
                simp [hv, hv2]
      | none =>
          cases hrest : lastKeyExe rest v with
          | some k => rfl
          | none => simp

theorem assocGet_buildIndex (s : Store) (v : VdfValue) :
    assocGet (buildIndex s) v = lastKeyExe s v := by
  rw [buildIndex, assocGet_buildIndexAux]
  cases lastKeyExe s v <;> rfl

theorem lastKeyExe_append_of_some (s t : Store) (v : VdfValue) (k : String)
    (h : lastKeyExe t v = some k) : lastKeyExe (s ++ t) v = some k := by
  induction s with
  | nil => rw [List.nil_append]; exact h
  | cons kv rest ih => rw [List.cons_append, lastKeyExe, ih]

theorem lastKeyExe_append_of_none (s t : Store) (v : VdfValue)
    (h : lastKeyExe t v = none) : lastKeyExe (s ++ t) v = lastKeyExe s v := by
  induction s with
  | nil => rw [List.nil_append, h]; rfl
  | cons kv rest ih => rw [List.cons_append, lastKeyExe, ih, lastKeyExe]

theorem lastKeyExe_mem (s : Store) (v : VdfValue) (k : String)
    (h : lastKeyExe s v = some k) : ∃ e, (k, e) ∈ s ∧ entryExe e = some v := by
  induction s with
  | nil => cases h
  | cons kv rest ih =>
      rw [lastKeyExe] at h
      cases hrest : lastKeyExe rest v with
      | some k' =>
          rw [hrest] at h
          obtain ⟨e, he, hexe⟩ := ih (hrest.trans h)
          exact ⟨e, List.mem_cons_of_mem kv he, hexe⟩
      | none =>
          rw [hrest] at h
          by_cases hexe : entryExe kv.2 = some v
          · rw [if_pos hexe] at h
            injection h with h1
            have hkk : (k, kv.2) = kv := by rw [← h1]
            refine ⟨kv.2, ?_, hexe⟩
            rw [hkk]
            exact List.mem_cons_self kv rest
          · rw [if_neg hexe] at h
            cases h

theorem lastKeyExe_none (s : Store) (v : VdfValue) (h : lastKeyExe s v = none) :
    ∀ kv ∈ s, entryExe kv.2 ≠ some v := by
  induction s with
  | nil => intro kv hkv; cases hkv
  | cons kv₀ rest ih =>
      intro kv hkv
      rw [lastKeyExe] at h
      cases hrest : lastKeyExe rest v with
      | some k' => rw [hrest] at h; cases h
      | none =>
          rw [hrest] at h
          rcases List.mem_cons.mp hkv with h1 | h1
          · subst h1
            intro hexe
            rw [if_pos hexe] at h
            cases h
          · exact ih hrest kv h1

theorem lastKeyExe_of_mem (s : Store) (v : VdfValue)
    (h : ∃ kv ∈ s, entryExe kv.2 = some v) : ∃ k, lastKeyExe s v = some k := by
  cases hl : lastKeyExe s v with
  | some k => exact ⟨k, rfl⟩
  | none =>
      obtain ⟨kv, hkv, hexe⟩ := h
      exact absurd hexe (lastKeyExe_none s v hl kv hkv)

theorem buildIndex_value_mem (s : Store) (v : VdfValue) (k : String)
    (h : assocGet (buildIndex s) v = some k) :
    ∃ e, (k, e) ∈ s ∧ entryExe e = some v := by
  rw [assocGet_buildIndex] at h
  exact lastKeyExe_mem s v k h

/-! ### Freshly built shortcuts have a recognizable launch target -/

theorem effectiveTarget_ne_empty (g : GameDefinition) (u : Bool)
    (h : g.executable_path ≠ "") : effectiveTarget g u ≠ "" := by
  rw [effectiveTarget]
  cases u with
  | false => exact h
  | true =>
      cases g.uri with
      | none => exact h
      | some s =>
          by_cases hs : s ≠ ""
          · simp [hs]
          · simpa [hs] using h

theorem entryExe_to_shortcut (g : GameDefinition) (u : Bool)
    (h : g.executable_path ≠ "") :
    entryExe (to_shortcut g u) = some (.str (effectiveTarget g u)) := by
  have ht := effectiveTarget_ne_empty g u h
  simp [to_shortcut, entryExe, dictGet, truthy, ht]

/-! ### Structure of the merge loop -/

/-- Keys after the merge loop, in either mode: the original keys in their
original order, followed by the printed consecutive fresh indices. -/
theorem mergeFold_keys (pti : List (VdfValue × String)) (u r : Bool) (store0 : Store)
    (hsub : ∀ v k, assocGet pti v = some k → k ∈ keys store0) :
    ∀ (gs : List GameDefinition) (st : LoopState),
      (∀ k ∈ keys store0, k ∈ keys st.store) →
      (∀ m, st.last_index < m → Nat.repr m ∉ keys st.store) →
      ∃ n, (gs.foldl (mergeStep pti u r) st).last_index = st.last_index + n ∧
        keys (gs.foldl (mergeStep pti u r) st).store
          = keys st.store ++ (List.range' (st.last_index + 1) n).map Nat.repr := by
  intro gs
  induction gs with
  | nil =>
      intro st h0 hfresh
      exact ⟨0, rfl, by simp [List.range']⟩
  | cons g gs ih =>
      intro st h0 hfresh
      rw [List.foldl_cons]
      have hins : ∀ hstep : mergeStep pti u r st g = insertStep st g u,
          ∃ n, (gs.foldl (mergeStep pti u r) (mergeStep pti u r st g)).last_index
              = st.last_index + n ∧
            keys (gs.foldl (mergeStep pti u r) (mergeStep pti u r st g)).store
              = keys st.store ++ (List.range' (st.last_index + 1) n).map Nat.repr := by
        intro hstep
        rw [hstep]
        have hnotin : Nat.repr (st.last_index + 1) ∉ keys st.store :=
          hfresh (st.last_index + 1) (Nat.lt_succ_self _)
        have hset : setKey st.store (Nat.repr (st.last_index + 1)) (to_shortcut g u)
            = st.store ++ [(Nat.repr (st.last_index + 1), to_shortcut g u)] :=
          setKey_of_not_mem _ _ _ hnotin
        have hkeys' : keys (insertStep st g u).store
            = keys st.store ++ [Nat.repr (st.last_index + 1)] := by
          rw [insertStep, hset]
          simp [keys]
        obtain ⟨n, hlast, hkeys⟩ := ih (insertStep st g u)
          (by
            intro k hk
            rw [hkeys', List.mem_append]
            exact Or.inl (h0 k hk))
          (by
            intro m hm
            rw [hkeys', List.mem_append]
            rintro (h1 | h1)
            · exact hfresh m (by simp [insertStep] at hm; omega) h1
            · simp only [List.mem_singleton] at h1
              have : m = st.last_index + 1 := repr_inj h1
              simp [insertStep] at hm
              omega)
        refine ⟨n + 1, ?_, ?_⟩
        · rw [hlast]; simp [insertStep]; omega
        · rw [hkeys, hkeys']
          rw [List.range'_succ, List.map_cons, List.append_assoc]
          simp [insertStep]
      cases hl : assocGet pti (.str (effectiveTarget g u)) with
      | none => exact hins (by rw [mergeStep, hl])
      | some i =>
          by_cases hi : i ≠ ""
          · cases r with
            | true =>
                have hstep : mergeStep pti u true st g
                    = { st with store := setKey st.store i (to_shortcut g u),
                                added := st.added + 1 } := by
                  rw [mergeStep, hl]; simp [hi]
                rw [hstep]
                have hmem : i ∈ keys st.store := h0 i (hsub _ i hl)
                have hk2 : keys (setKey st.store i (to_shortcut g u)) = keys st.store :=
                  keys_setKey_of_mem _ _ _ hmem
                obtain ⟨n, hlast, hkeys⟩ := ih
                  { st with store := setKey st.store i (to_shortcut g u),
                            added := st.added + 1 }
                  (fun k hk => by
                    show k ∈ keys (setKey st.store i (to_shortcut g u))
                    rw [hk2]; exact h0 k hk)
                  (fun m hm => by
                    show Nat.repr m ∉ keys (setKey st.store i (to_shortcut g u))
                    rw [hk2]; exact hfresh m hm)
                refine ⟨n, hlast, ?_⟩
                rw [hkeys]
                show keys (setKey st.store i (to_shortcut g u)) ++ _ = _
                rw [hk2]
            | false =>
                have hstep : mergeStep pti u false st g
                    = { st with game_results := st.game_results ++ [skipMsg g] } := by
                  rw [mergeStep, hl]; simp [hi]
                rw [hstep]
                obtain ⟨n, hlast, hkeys⟩ := ih
                  { st with game_results := st.game_results ++ [skipMsg g] }
                  (fun k hk => h0 k hk)
                  (fun m hm => hfresh m hm)
                exact ⟨n, hlast, hkeys⟩
          · rw [not_not] at hi
            exact hins (by rw [mergeStep, hl]; simp [hi])

/-- Full structure of the merge loop in default (non-replace) mode: the
store only grows by appended fresh entries; every appended entry is the
fresh shortcut of a selected game whose identity lookup failed; every
selected game either matched an indexed entry (with a truthy key) or has
its own freshly appended entry. -/
theorem mergeFold_false (pti : List (VdfValue × String)) (u : Bool)
    (gs : List GameDefinition) :
    ∀ st : LoopState,
      (∀ g ∈ gs, g.executable_path ≠ "") →
      (∀ m, st.last_index < m → Nat.repr m ∉ keys st.store) →
      ∃ extra : Store,
        (gs.foldl (mergeStep pti u false) st).store = st.store ++ extra ∧
        (gs.foldl (mergeStep pti u false) st).last_index
          = st.last_index + extra.length ∧
        (gs.foldl (mergeStep pti u false) st).added = st.added + extra.length ∧
        List.Sublist (extra.map Prod.snd) (gs.map (fun g => to_shortcut g u)) ∧
        (∀ kv ∈ extra,
          (∃ m, st.last_index < m ∧ kv.1 = Nat.repr m) ∧
          (∃ g ∈ gs, kv.2 = to_shortcut g u ∧
            entryExe kv.2 = some (.str (effectiveTarget g u)) ∧
            (assocGet pti (.str (effectiveTarget g u)) = none ∨
             assocGet pti (.str (effectiveTarget g u)) = some ""))) ∧
        (∀ g ∈ gs,
          (∃ k, assocGet pti (.str (effectiveTarget g u)) = some k ∧ k ≠ "") ∨
          (∃ kv ∈ extra, entryExe kv.2 = some (.str (effectiveTarget g u)))) := by
  induction gs with
  | nil =>
      intro st hg hfresh
      exact ⟨[], by simp, by simp, by simp, by simp, by simp, by simp⟩
  | cons g gs ih =>
      intro st hg hfresh
      have hgtail : ∀ g' ∈ gs, g'.executable_path ≠ "" :=
        fun g' h => hg g' (List.mem_cons_of_mem g h)
      have hghead : g.executable_path ≠ "" := hg g (List.mem_cons_self g gs)
      rw [List.foldl_cons]
      have hins :
          (assocGet pti (.str (effectiveTarget g u)) = none ∨
           assocGet pti (.str (effectiveTarget g u)) = some "") →
          mergeStep pti u false st g = insertStep st g u →
          ∃ extra : Store,
            (gs.foldl (mergeStep pti u false) (mergeStep pti u false st g)).store
              = st.store ++ extra ∧
            (gs.foldl (mergeStep pti u false) (mergeStep pti u false st g)).last_index
              = st.last_index + extra.length ∧
            (gs.foldl (mergeStep pti u false) (mergeStep pti u false st g)).added
              = st.added + extra.length ∧
            List.Sublist (extra.map Prod.snd) ((g :: gs).map (fun g => to_shortcut g u)) ∧
            (∀ kv ∈ extra,
              (∃ m, st.last_index < m ∧ kv.1 = Nat.repr m) ∧
              (∃ g' ∈ g :: gs, kv.2 = to_shortcut g' u ∧
                entryExe kv.2 = some (.str (effectiveTarget g' u)) ∧
                (assocGet pti (.str (effectiveTarget g' u)) = none ∨
                 assocGet pti (.str (effectiveTarget g' u)) = some ""))) ∧
            (∀ g' ∈ g :: gs,
              (∃ k, assocGet pti (.str (effectiveTarget g' u)) = some k ∧ k ≠ "") ∨
              (∃ kv ∈ extra, entryExe kv.2 = some (.str (effectiveTarget g' u)))) := by
        intro hwhy hstep
        rw [hstep]
        have hnotin : Nat.repr (st.last_index + 1) ∉ keys st.store :=
          hfresh (st.last_index + 1) (Nat.lt_succ_self _)
        have hset : (insertStep st g u).store
            = st.store ++ [(Nat.repr (st.last_index + 1), to_shortcut g u)] := by
          rw [insertStep]
          exact setKey_of_not_mem _ _ _ hnotin
        have hfresh' : ∀ m, (insertStep st g u).last_index < m →
            Nat.repr m ∉ keys (insertStep st g u).store := by
          intro m hm
          rw [hset, keys, List.map_append, List.mem_append]
          rintro (h1 | h1)
          · exact hfresh m (by simp [insertStep] at hm; omega) h1
          · simp only [List.map_cons, List.map_nil, List.mem_singleton] at h1
            have : m = st.last_index + 1 := repr_inj h1
            simp [insertStep] at hm
            omega
        obtain ⟨extra, hstore, hlast, hadded, hsub, hentry, hgame⟩ :=
          ih (insertStep st g u) hgtail hfresh'
        refine ⟨(Nat.repr (st.last_index + 1), to_shortcut g u) :: extra,
          ?_, ?_, ?_, ?_, ?_, ?_⟩
        · rw [hstore, hset, List.append_assoc, List.singleton_append]
        · rw [hlast]
          simp [insertStep]
          omega
        · rw [hadded]
          simp [insertStep]
          omega
        · rw [List.map_cons, List.map_cons]
          exact List.Sublist.cons₂ _ hsub
        · intro kv hkv
          rcases List.mem_cons.mp hkv with h1 | h1
          · subst h1
            refine ⟨⟨st.last_index + 1, Nat.lt_succ_self _, rfl⟩,
              g, List.mem_cons_self g gs, rfl, entryExe_to_shortcut g u hghead, hwhy⟩
          · obtain ⟨⟨m, hm, hrepr⟩, g', hg', hrest⟩ := hentry kv h1
            refine ⟨⟨m, ?_, hrepr⟩, g', List.mem_cons_of_mem g hg', hrest⟩
            simp [insertStep] at hm
            omega
        · intro g' hg'
          rcases List.mem_cons.mp hg' with h1 | h1
          · subst h1
            refine Or.inr ⟨(Nat.repr (st.last_index + 1), to_shortcut g' u),
              List.mem_cons_self _ _, entryExe_to_shortcut g' u hghead⟩
          · rcases hgame g' h1 with h2 | ⟨kv, hkv, hexe⟩
            · exact Or.inl h2
            · exact Or.inr ⟨kv, List.mem_cons_of_mem _ hkv, hexe⟩
      cases hl : assocGet pti (.str (effectiveTarget g u)) with
      | none => exact hins (Or.inl hl) (by rw [mergeStep, hl])
      | some i =>
          by_cases hi : i ≠ ""
          · have hstep : mergeStep pti u false st g
                = { st with game_results := st.game_results ++ [skipMsg g] } := by
              rw [mergeStep, hl]; simp [hi]
            rw [hstep]
            obtain ⟨extra, hstore, hlast, hadded, hsub, hentry, hgame⟩ := ih
              { st with game_results := st.game_results ++ [skipMsg g] }
              hgtail (fun m hm => hfresh m hm)
            refine ⟨extra, hstore, hlast, hadded,
              List.Sublist.cons _ hsub, ?_, ?_⟩
            · intro kv hkv
              obtain ⟨hidx, g', hg', hrest⟩ := hentry kv hkv
              exact ⟨hidx, g', List.mem_cons_of_mem g hg', hrest⟩
            · intro g' hg'
              rcases List.mem_cons.mp hg' with h1 | h1
              · subst h1
                exact Or.inl ⟨i, hl, hi⟩
              · exact hgame g' h1
          · rw [not_not] at hi
            subst hi
            exact hins (Or.inr hl) (by rw [mergeStep, hl]; simp)

/-- When every selected game's identity lookup succeeds with a truthy
key, the merge loop in default mode only accumulates skip messages: no
store change, no additions, no index movement. -/
theorem mergeFold_allskip (pti : List (VdfValue × String)) (u : Bool)
    (gs : List GameDefinition) :
    ∀ st : LoopState,
      (∀ g ∈ gs, ∃ k, assocGet pti (.str (effectiveTarget g u)) = some k ∧ k ≠ "") →
      gs.foldl (mergeStep pti u false) st
        = { st with game_results := st.game_results ++ gs.map skipMsg } := by
  induction gs with
  | nil => intro st h; simp
  | cons g gs ih =>
      intro st h
      obtain ⟨k, hk, hkne⟩ := h g (List.mem_cons_self g gs)
      have hstep : mergeStep pti u false st g
          = { st with game_results := st.game_results ++ [skipMsg g] } := by
        rw [mergeStep, hk]; simp [hkne]
      rw [List.foldl_cons, hstep,
        ih _ (fun g' hg' => h g' (List.mem_cons_of_mem g hg'))]
      simp

/-- After a non-replace merge, every selected game's launch target is
indexed (with a truthy key) in the resulting store: the input to the
second run of an idempotence pair. -/
theorem post_merge_indexed (store : Store) (games : List GameDefinition) (u : Bool)
    (h : ∀ g ∈ games, g.executable_path ≠ "") :
    ∀ g ∈ games, ∃ k,
      assocGet (buildIndex (runMerge store games u false).store)
        (.str (effectiveTarget g u)) = some k ∧ k ≠ "" := by
  obtain ⟨extra, hstore, hlast, hadded, hsub, hentry, hgame⟩ :=
    mergeFold_false (buildIndex store) u games
      { store := store, added := 0, last_index := lastIndex store, game_results := [] }
      h (fun m hm => repr_fresh store m hm)
  intro g hg
  unfold runMerge
  rw [hstore]
  have extra_key_ne : ∀ kv ∈ extra, kv.1 ≠ "" := by
    intro kv hkv
    obtain ⟨⟨m, hm, hrepr⟩, _⟩ := hentry kv hkv
    rw [hrepr]
    exact repr_ne_empty m
  cases hx : lastKeyExe extra (.str (effectiveTarget g u)) with
  | some k =>
      refine ⟨k, ?_, ?_⟩
      · rw [assocGet_buildIndex]
        exact lastKeyExe_append_of_some store extra _ k hx
      · obtain ⟨e, hmem, _⟩ := lastKeyExe_mem extra _ k hx
        exact extra_key_ne (k, e) hmem
  | none =>
      rcases hgame g hg with ⟨k, hk, hkne⟩ | ⟨kv, hkv, hexe⟩
      · refine ⟨k, ?_, hkne⟩
        rw [assocGet_buildIndex, lastKeyExe_append_of_none store extra _ hx,
          ← assocGet_buildIndex]
        exact hk
      · exact absurd hexe (lastKeyExe_none extra _ hx kv hkv)

/-! ### Outcome helpers -/

theorem add_games_store_eq (s : Store) (gs : List GameDefinition)
    (sb u r : Bool) (p t : String) :
    (add_games_to_shortcut_file true s gs sb u r p t).store
      = (runMerge s gs u r).store := by
  by_cases h : (runMerge s gs u r).added = 0 <;>
    simp [add_games_to_shortcut_file, h]

theorem add_games_noop (s : Store) (gs : List GameDefinition)
    (sb u r : Bool) (p t : String) (h : (runMerge s gs u r).added = 0) :
    add_games_to_shortcut_file true s gs sb u r p t
      = { result := none, error := some noopMsg, added := 0,
          store := (runMerge s gs u r).store, ops := [],
          warnings := malformedKeys s } := by
  simp [add_games_to_shortcut_file, h]

/-! ### The claims -/

/-- C1: merging is idempotent in default mode: after one
`add_games_to_shortcut_file` run with `replace_existing=false`, a second
run with identical inputs adds zero entries, leaves the store exactly as
the first run left it, performs no filesystem operation (no backup, no
remove, no write), and returns the descriptive no-op message.  The
hypothesis is spec §3's GameRecord invariant: a selected record's
`executable_path` names an existing file, hence is nonempty. -/
theorem merge_idempotent (store : Store) (games : List GameDefinition)
    (skip_backup use_uri : Bool) (path t1 t2 : String)
    (h : ∀ g ∈ games, g.executable_path ≠ "") :
    (runMerge
        (add_games_to_shortcut_file true store games skip_backup use_uri false path t1).store
        games use_uri false).added = 0 ∧
    add_games_to_shortcut_file true
        (add_games_to_shortcut_file true store games skip_backup use_uri false path t1).store
        games skip_backup use_uri false path t2
      = { result := none, error := some noopMsg, added := 0,
          store := (add_games_to_shortcut_file true store games
            skip_backup use_uri false path t1).store,
          ops := [],
          warnings := malformedKeys
            (add_games_to_shortcut_file true store games
              skip_backup use_uri false path t1).store } := by
  have hst : (add_games_to_shortcut_file true store games skip_backup use_uri false path t1).store
      = (runMerge store games use_uri false).store :=
    add_games_store_eq store games skip_backup use_uri false path t1
  have hidx := post_merge_indexed store games use_uri h
  have hrun2 : runMerge (runMerge store games use_uri false).store games use_uri false
      = { store := (runMerge store games use_uri false).store, added := 0,
          last_index := lastIndex (runMerge store games use_uri false).store,
          game_results := [] ++ games.map skipMsg } := by
    rw [runMerge, mergeFold_allskip _ _ games _ hidx]
  have hadded2 : (runMerge (runMerge store games use_uri false).store games use_uri false).added
      = 0 := by rw [hrun2]
  constructor
  · rw [hst, hadded2]
  · rw [hst, add_games_noop _ _ _ _ _ _ _ hadded2, hrun2]

/-! ### Concrete fixtures for witnesses and counterexamples -/

/-- A well-formed store entry with the given launch target. -/
def wEntry (exe : String) : Entry :=
  [("appname", VdfValue.str "Existing"), ("Exe", VdfValue.str exe)]

/-- A one-entry store whose entry launches `C:\old\game.exe` at index 0. -/
def wStore : Store := [("0", wEntry "C:\\old\\game.exe")]

/-- A selected record whose target is absent from `wStore`. -/
def wgFresh : GameDefinition :=
  { executable_path := "C:\\fresh\\fresh.exe", display_name := "Fresh",
    app_name := "app-fresh", install_folder := "C:\\fresh", launch_arguments := "",
    uri := none, storetag := "epic", icon := "" }

/-- A second record with the same target as `wgFresh` but different fields. -/
def wgFresh2 : GameDefinition :=
  { executable_path := "C:\\fresh\\fresh.exe", display_name := "FreshTwo",
    app_name := "app-fresh2", install_folder := "C:\\fresh", launch_arguments := "",
    uri := none, storetag := "itchio", icon := "" }

/-- A selected record whose target matches the `wStore` entry. -/
def wgMatch : GameDefinition :=
  { executable_path := "C:\\old\\game.exe", display_name := "Old",
    app_name := "app-old", install_folder := "C:\\old", launch_arguments := "-windowed",
    uri := none, storetag := "xbox", icon := "C:\\icons\\old.ico" }

theorem merge_idempotent_witness :
    (∀ g ∈ [wgFresh, wgMatch], g.executable_path ≠ "") ∧
    ((runMerge
        (add_games_to_shortcut_file true wStore [wgFresh, wgMatch] false false false "p" "t1").store
        [wgFresh, wgMatch] false false).added = 0 ∧
     add_games_to_shortcut_file true
        (add_games_to_shortcut_file true wStore [wgFresh, wgMatch] false false false "p" "t1").store
        [wgFresh, wgMatch] false false false "p" "t2"
       = { result := none, error := some noopMsg, added := 0,
           store := (add_games_to_shortcut_file true wStore [wgFresh, wgMatch]
             false false false "p" "t1").store,
           ops := [],
           warnings := malformedKeys
             (add_games_to_shortcut_file true wStore [wgFresh, wgMatch]
               false false false "p" "t1").store }) :=
  ⟨by decide, merge_idempotent wStore [wgFresh, wgMatch] false false "p" "t1" "t2" (by decide)⟩

/-- C2 counterexample: with `replace_existing=true` a replace is *not*
reported in the returned results list.  At this concrete input the run
replaces the matching entry (count 1, store changed), yet the
accumulated `game_results` is empty and the function returns the report
`([], 1)` with no replace message in the list. -/
theorem replace_not_reported :
    (runMerge wStore [wgMatch] false true).added = 1 ∧
    (runMerge wStore [wgMatch] false true).store ≠ wStore ∧
    (runMerge wStore [wgMatch] false true).game_results = [] ∧
    (add_games_to_shortcut_file true wStore [wgMatch] false false true "p" "t").result
      = some ([], 1) := by decide

/-- C2 (amended): with an existing entry indexed (truthy key `i`) at
launch target `P` and a selected record with effective target `P`:
`replace_existing=false` leaves the whole store unchanged, appends the
skip message, and counts 0; `replace_existing=true` overwrites that
entry's full field set with the freshly built shortcut and counts 1, but
reports the replace only through the count: the results list stays
empty. -/
theorem replace_vs_skip (store : Store) (u : Bool) (g : GameDefinition)
    (P i : String)
    (hP : effectiveTarget g u = P)
    (hi : assocGet (buildIndex store) (.str P) = some i)
    (hne : i ≠ "") :
    (runMerge store [g] u false).store = store ∧
    (runMerge store [g] u false).game_results = [skipMsg g] ∧
    (runMerge store [g] u false).added = 0 ∧
    (runMerge store [g] u true).store = setKey store i (to_shortcut g u) ∧
    (runMerge store [g] u true).added = 1 ∧
    (runMerge store [g] u true).game_results = [] := by
  subst hP
  refine ⟨?_, ?_, ?_, ?_, ?_, ?_⟩ <;> simp [runMerge, mergeStep, hi, hne]

theorem replace_vs_skip_witness :
    (effectiveTarget wgMatch false = "C:\\old\\game.exe" ∧
     assocGet (buildIndex wStore) (.str "C:\\old\\game.exe") = some "0" ∧
     ("0" : String) ≠ "") ∧
    ((runMerge wStore [wgMatch] false false).store = wStore ∧
     (runMerge wStore [wgMatch] false false).game_results = [skipMsg wgMatch] ∧
     (runMerge wStore [wgMatch] false false).added = 0 ∧
     (runMerge wStore [wgMatch] false true).store
       = setKey wStore "0" (to_shortcut wgMatch false) ∧
     (runMerge wStore [wgMatch] false true).added = 1 ∧
     (runMerge wStore [wgMatch] false true).game_results = []) :=
  ⟨⟨by decide, by decide, by decide⟩,
   replace_vs_skip wStore false wgMatch "C:\\old\\game.exe" "0"
     (by decide) (by decide) (by decide)⟩

/-- C4: whenever the merge loop computes zero added-or-replaced entries,
the function performs no filesystem operation at all (no backup, no
remove, no rename, no write), returns no result pair, and returns the
descriptive no-op message instead. -/
theorem noop_no_write (store : Store) (games : List GameDefinition)
    (sb u r : Bool) (p t : String)
    (h : (runMerge store games u r).added = 0) :
    (add_games_to_shortcut_file true store games sb u r p t).ops = [] ∧
    (add_games_to_shortcut_file true store games sb u r p t).result = none ∧
    (add_games_to_shortcut_file true store games sb u r p t).error = some noopMsg := by
  rw [add_games_noop store games sb u r p t h]
  exact ⟨rfl, rfl, rfl⟩

theorem noop_no_write_witness :
    (runMerge wStore [wgMatch] false false).added = 0 ∧
    ((add_games_to_shortcut_file true wStore [wgMatch] false false false "p" "t").ops = [] ∧
     (add_games_to_shortcut_file true wStore [wgMatch] false false false "p" "t").result = none ∧
     (add_games_to_shortcut_file true wStore [wgMatch] false false false "p" "t").error
       = some noopMsg) :=
  ⟨by decide, noop_no_write wStore [wgMatch] false false false "p" "t" (by decide)⟩

/-- At most one entry per distinct launch target: entries at two
different positions of the store never share a recognizable launch
target. -/
def UniqueTargets (s : Store) : Prop :=
  List.Pairwise
    (fun a b : String × Entry => ∀ v, entryExe a.2 = some v → entryExe b.2 ≠ some v) s

/-- C3 counterexample: on the empty store (trivially one entry per
target) a default-mode run over two selected records sharing one fresh
target inserts *both* as separate entries with the same launch target. -/
theorem duplicate_targets_both_inserted :
    (runMerge [] [wgFresh, wgFresh2] false false).store
      = [("1", to_shortcut wgFresh false), ("2", to_shortcut wgFresh2 false)] ∧
    entryExe (to_shortcut wgFresh false) = some (.str "C:\\fresh\\fresh.exe") ∧
    entryExe (to_shortcut wgFresh2 false) = some (.str "C:\\fresh\\fresh.exe") := by
  decide

/-- Distinct-key stores never index the empty-string key. -/
theorem buildIndex_ne_empty_key (store : Store) (hnum : NumericKeys store) (v : VdfValue) :
    assocGet (buildIndex store) v ≠ some "" := by
  intro h
  obtain ⟨e, hmem, _⟩ := buildIndex_value_mem store v "" h
  have := hnum ("", e) hmem
  simp [parseIndex, digitsToNat] at this

/-- C3 (amended): in default (non-replace) mode the merged store keeps at
most one entry per distinct launch target, provided the selected
records' effective targets are pairwise distinct (two same-run records
sharing a fresh target are otherwise both inserted, see the
counterexample) and the store is well formed (numeric string keys,
nonempty executable paths). -/
theorem merge_unique_targets (store : Store) (games : List GameDefinition) (u : Bool)
    (hnum : NumericKeys store)
    (hstore : UniqueTargets store)
    (hgames : List.Pairwise
      (fun a b => effectiveTarget a u ≠ effectiveTarget b u) games)
    (hpaths : ∀ g ∈ games, g.executable_path ≠ "") :
    UniqueTargets (runMerge store games u false).store := by
  obtain ⟨extra, hstoreq, hlast, hadded, hsub, hentry, hgame⟩ :=
    mergeFold_false (buildIndex store) u games
      { store := store, added := 0, last_index := lastIndex store, game_results := [] }
      hpaths (fun m hm => repr_fresh store m hm)
  unfold runMerge
  rw [hstoreq]
  unfold UniqueTargets
  rw [List.pairwise_append]
  refine ⟨hstore, ?_, ?_⟩
  · -- pairwise inside the appended block: targets come pairwise distinct
    -- from the selected records.
    have hpair : List.Pairwise
        (fun e1 e2 : Entry => ∀ v, entryExe e1 = some v → entryExe e2 ≠ some v)
        (games.map (fun g => to_shortcut g u)) := by
      rw [List.pairwise_map]
      refine hgames.imp_of_mem ?_
      intro a b ha hb hne v hva hvb
      rw [entryExe_to_shortcut a u (hpaths a ha)] at hva
      rw [entryExe_to_shortcut b u (hpaths b hb)] at hvb
      injection hva with hva
      injection hvb with hvb
      rw [← hva] at hvb
      exact hne (by injection hvb with h2; exact h2.symm)
    have hpairX : List.Pairwise
        (fun e1 e2 : Entry => ∀ v, entryExe e1 = some v → entryExe e2 ≠ some v)
        (extra.map Prod.snd) := List.Pairwise.sublist hsub hpair
    rw [List.pairwise_map] at hpairX
    exact hpairX
  · -- cross part: an appended entry's target was absent from the store.
    intro a ha b hb v hva hvb
    obtain ⟨_, g, hg, hbshort, hbexe, hwhy⟩ := hentry b hb
    rcases hwhy with hnone | hempty
    · rw [hvb] at hbexe
      injection hbexe with hv
      rw [assocGet_buildIndex] at hnone
      have := lastKeyExe_none store _ hnone a ha
      rw [hv] at hva
      exact this hva
    · exact buildIndex_ne_empty_key store hnum _ hempty

theorem merge_unique_targets_witness :
    (NumericKeys wStore ∧ UniqueTargets wStore ∧
     List.Pairwise
       (fun a b => effectiveTarget a false ≠ effectiveTarget b false)
       [wgFresh, wgMatch] ∧
     (∀ g ∈ [wgFresh, wgMatch], g.executable_path ≠ "")) ∧
    UniqueTargets (runMerge wStore [wgFresh, wgMatch] false false).store :=
  ⟨⟨by decide, by unfold UniqueTargets wStore; refine List.Pairwise.cons (fun b hb => absurd hb (List.not_mem_nil b)) List.Pairwise.nil, by decide, by decide⟩,
   merge_unique_targets wStore [wgFresh, wgMatch] false (by decide)
     (by unfold UniqueTargets wStore; refine List.Pairwise.cons (fun b hb => absurd hb (List.not_mem_nil b)) List.Pairwise.nil) (by decide) (by decide)⟩

/-- C6: the first free index is `1 + max(existing numeric indices)` —
`lastIndex` is an upper bound on, and attained by, the numeric key
values — and `1` on the empty store; and within one run the appended
entries' keys are the printed consecutive indices
`last+1, last+2, ...`, each strictly greater than every pre-existing
numeric index and than every index inserted earlier in the run. -/
theorem next_index_monotone (store : Store) (games : List GameDefinition)
    (u r : Bool) (hnum : NumericKeys store) :
    lastIndex ([] : Store) + 1 = 1 ∧
    (∀ kv ∈ store, ∀ m, parseIndex kv.1 = some m → m ≤ lastIndex store) ∧
    (store ≠ [] → ∃ kv ∈ store, parseIndex kv.1 = some (lastIndex store)) ∧
    (∃ n, (runMerge store games u r).last_index = lastIndex store + n ∧
      keys (runMerge store games u r).store
        = keys store ++ (List.range' (lastIndex store + 1) n).map Nat.repr) := by
  refine ⟨rfl, ?_, ?_, ?_⟩
  · intro kv hkv m hm
    have := keyVal_le_lastIndex store kv hkv
    rw [keyVal, hm] at this
    exact this
  · intro hne
    obtain ⟨kv, hkv, hval⟩ := lastIndex_mem store hne
    obtain ⟨m, hm⟩ := Option.isSome_iff_exists.mp (hnum kv hkv)
    refine ⟨kv, hkv, ?_⟩
    rw [hm]
    rw [keyVal, hm] at hval
    simp only [Option.getD_some] at hval
    rw [hval]
  · have hsub : ∀ v k, assocGet (buildIndex store) v = some k → k ∈ keys store := by
      intro v k h
      obtain ⟨e, hmem, _⟩ := buildIndex_value_mem store v k h
      exact List.mem_map.mpr ⟨(k, e), hmem, rfl⟩
    obtain ⟨n, hlast, hkeys⟩ := mergeFold_keys (buildIndex store) u r store hsub games
      { store := store, added := 0, last_index := lastIndex store, game_results := [] }
      (fun k hk => hk) (fun m hm => repr_fresh store m hm)
    exact ⟨n, hlast, hkeys⟩

theorem next_index_monotone_witness :
    NumericKeys wStore ∧
    (lastIndex ([] : Store) + 1 = 1 ∧
     (∀ kv ∈ wStore, ∀ m, parseIndex kv.1 = some m → m ≤ lastIndex wStore) ∧
     (wStore ≠ [] → ∃ kv ∈ wStore, parseIndex kv.1 = some (lastIndex wStore)) ∧
     (∃ n, (runMerge wStore [wgFresh, wgMatch] false false).last_index
          = lastIndex wStore + n ∧
       keys (runMerge wStore [wgFresh, wgMatch] false false).store
         = keys wStore ++ (List.range' (lastIndex wStore + 1) n).map Nat.repr)) :=
  ⟨by decide, next_index_monotone wStore [wgFresh, wgMatch] false false (by decide)⟩

theorem add_games_warnings (s : Store) (gs : List GameDefinition)
    (sb u r : Bool) (p t : String) :
    (add_games_to_shortcut_file true s gs sb u r p t).warnings = malformedKeys s := by
  by_cases h : (runMerge s gs u r).added = 0 <;>
    simp [add_games_to_shortcut_file, h]

/-- In a store with distinct keys a key determines its entry. -/
theorem nodup_keys_entry_eq (s : Store) (hnd : (keys s).Nodup)
    (k : String) (a b : Entry) (ha : (k, a) ∈ s) (hb : (k, b) ∈ s) : a = b := by
  induction s with
  | nil => cases ha
  | cons kv rest ih =>
      rw [keys, List.map_cons, List.nodup_cons] at hnd
      rcases List.mem_cons.mp ha with h1 | h1 <;> rcases List.mem_cons.mp hb with h2 | h2
      · rw [← h1] at h2; injection h2 with _ h3; exact h3.symm
      · exfalso
        refine hnd.1 ?_
        have : kv.1 = k := by rw [← h1]
        rw [this]
        exact List.mem_map.mpr ⟨(k, b), h2, rfl⟩
      · exfalso
        refine hnd.1 ?_
        have : kv.1 = k := by rw [← h2]
        rw [this]
        exact List.mem_map.mpr ⟨(k, a), h1, rfl⟩
      · exact ih hnd.2 h1 h2

/-- Positional preservation through the merge loop: a position holding an
entry whose key is never produced by the identity lookup is untouched in
either mode. -/
theorem mergeFold_get_preserved (pti : List (VdfValue × String)) (u r : Bool)
    (store0 : Store)
    (hsub : ∀ v k, assocGet pti v = some k → k ∈ keys store0)
    (k₀ : String) (e₀ : Entry)
    (hexc : ∀ v, assocGet pti v ≠ some k₀) (pos : Nat) :
    ∀ (gs : List GameDefinition) (st : LoopState),
      (∀ k ∈ keys store0, k ∈ keys st.store) →
      (∀ m, st.last_index < m → Nat.repr m ∉ keys st.store) →
      st.store.get? pos = some (k₀, e₀) →
      (gs.foldl (mergeStep pti u r) st).store.get? pos = some (k₀, e₀) := by
  intro gs
  induction gs with
  | nil => intro st h0 hfresh hp; exact hp
  | cons g gs ih =>
      intro st h0 hfresh hp
      rw [List.foldl_cons]
      have hins : mergeStep pti u r st g = insertStep st g u →
          (gs.foldl (mergeStep pti u r) (mergeStep pti u r st g)).store.get? pos
            = some (k₀, e₀) := by
        intro hstep
        rw [hstep]
        have hnotin : Nat.repr (st.last_index + 1) ∉ keys st.store :=
          hfresh (st.last_index + 1) (Nat.lt_succ_self _)
        have hset : (insertStep st g u).store
            = st.store ++ [(Nat.repr (st.last_index + 1), to_shortcut g u)] := by
          rw [insertStep]
          exact setKey_of_not_mem _ _ _ hnotin
        have hlt : pos < st.store.length := by
          by_contra hge
          rw [List.get?_eq_none.mpr (Nat.le_of_not_lt hge)] at hp
          cases hp
        refine ih (insertStep st g u) ?_ ?_ ?_
        · intro k hk
          rw [hset, keys, List.map_append, List.mem_append]
          exact Or.inl (h0 k hk)
        · intro m hm
          rw [hset, keys, List.map_append, List.mem_append]
          rintro (h1 | h1)
          · exact hfresh m (by simp [insertStep] at hm; omega) h1
          · simp only [List.map_cons, List.map_nil, List.mem_singleton] at h1
            have : m = st.last_index + 1 := repr_inj h1
            simp [insertStep] at hm
            omega
        · rw [hset, List.get?_append hlt]
          exact hp
      cases hl : assocGet pti (.str (effectiveTarget g u)) with
      | none => exact hins (by rw [mergeStep, hl])
      | some i =>
          by_cases hi : i ≠ ""
          · cases r with
            | true =>
                have hstep : mergeStep pti u true st g
                    = { st with store := setKey st.store i (to_shortcut g u),
                                added := st.added + 1 } := by
                  rw [mergeStep, hl]; simp [hi]
                rw [hstep]
                have hik : i ≠ k₀ := by
                  intro hik
                  exact hexc _ (hik ▸ hl)
                have hmem : i ∈ keys st.store := h0 i (hsub _ i hl)
                have hk2 : keys (setKey st.store i (to_shortcut g u)) = keys st.store :=
                  keys_setKey_of_mem _ _ _ hmem
                refine ih
                  { st with store := setKey st.store i (to_shortcut g u),
                            added := st.added + 1 }
                  (fun k hk => by
                    show k ∈ keys (setKey st.store i (to_shortcut g u))
                    rw [hk2]; exact h0 k hk)
                  (fun m hm => by
                    show Nat.repr m ∉ keys (setKey st.store i (to_shortcut g u))
                    rw [hk2]; exact hfresh m hm)
                  ?_
                show (setKey st.store i (to_shortcut g u)).get? pos = some (k₀, e₀)
                exact setKey_get?_of_ne st.store i (to_shortcut g u) pos k₀ e₀ hp
                  (fun h => hik h.symm)
            | false =>
                have hstep : mergeStep pti u false st g
                    = { st with game_results := st.game_results ++ [skipMsg g] } := by
                  rw [mergeStep, hl]; simp [hi]
                rw [hstep]
                exact ih { st with game_results := st.game_results ++ [skipMsg g] }
                  (fun k hk => h0 k hk) (fun m hm => hfresh m hm) hp
          · rw [not_not] at hi
            subst hi
            exact hins (by rw [mergeStep, hl]; simp)

/-- C7: a pre-existing entry with no recognizable launch target under
either key spelling is warned about (its key appears in the printed
warnings), is excluded from the identity index (no lookup ever yields its
key, so it can never be skipped over or replaced), and survives the merge
loop byte-for-byte at its original position, in either mode. -/
theorem malformed_preserved (store : Store) (games : List GameDefinition)
    (sb u r : Bool) (p t : String) (pos : Nat) (k₀ : String) (e₀ : Entry)
    (hnd : (keys store).Nodup)
    (hpos : store.get? pos = some (k₀, e₀))
    (hmal : entryExe e₀ = none) :
    k₀ ∈ (add_games_to_shortcut_file true store games sb u r p t).warnings ∧
    (∀ v, assocGet (buildIndex store) v ≠ some k₀) ∧
    (runMerge store games u r).store.get? pos = some (k₀, e₀) := by
  have hmem : (k₀, e₀) ∈ store := List.get?_mem hpos
  have hexc : ∀ v, assocGet (buildIndex store) v ≠ some k₀ := by
    intro v h
    obtain ⟨e, hmem', hexe⟩ := buildIndex_value_mem store v k₀ h
    have := nodup_keys_entry_eq store hnd k₀ e e₀ hmem' hmem
    rw [this, hmal] at hexe
    cases hexe
  refine ⟨?_, hexc, ?_⟩
  · rw [add_games_warnings]
    rw [malformedKeys]
    refine List.mem_map.mpr ⟨(k₀, e₀), ?_, rfl⟩
    refine List.mem_filter.mpr ⟨hmem, ?_⟩
    rw [hmal]
    rfl
  · have hsub : ∀ v k, assocGet (buildIndex store) v = some k → k ∈ keys store := by
      intro v k h
      obtain ⟨e, hmem', _⟩ := buildIndex_value_mem store v k h
      exact List.mem_map.mpr ⟨(k, e), hmem', rfl⟩
    exact mergeFold_get_preserved (buildIndex store) u r store hsub k₀ e₀ hexc pos
      games { store := store, added := 0, last_index := lastIndex store, game_results := [] }
      (fun k hk => hk) (fun m hm => repr_fresh store m hm) hpos

/-- A malformed entry (integer `Exe`-less field map) for the C7 witness. -/
def wMalformed : Entry := [("appname", VdfValue.str "Broken"), ("icon", VdfValue.str "")]

/-- A two-entry store whose second entry is malformed. -/
def wStoreMal : Store := [("0", wEntry "C:\\old\\game.exe"), ("3", wMalformed)]

theorem malformed_preserved_witness :
    ((keys wStoreMal).Nodup ∧
     wStoreMal.get? 1 = some ("3", wMalformed) ∧
     entryExe wMalformed = none) ∧
    ("3" ∈ (add_games_to_shortcut_file true wStoreMal [wgFresh] false false false "p" "t").warnings ∧
     (∀ v, assocGet (buildIndex wStoreMal) v ≠ some "3") ∧
     (runMerge wStoreMal [wgFresh] false false).store.get? 1 = some ("3", wMalformed)) :=
  ⟨⟨by decide, by decide, by decide⟩,
   malformed_preserved wStoreMal [wgFresh] false false false "p" "t" 1 "3" wMalformed
     (by decide) (by decide) (by decide)⟩

/-- C10: the identity index is built once and never updated during the
loop, so (a) two same-run records sharing a fresh effective target are
both inserted, at the consecutive printed indices `last+1` and `last+2`;
(b) a replaced entry is rewritten in place at its original key, whose
position in the store is unchanged; (c) in any run no existing index key
is removed or renumbered: the original keys survive, in order, as a
prefix of the result's keys. -/
theorem index_built_once (store : Store) (u r : Bool)
    (g1 g2 gm : GameDefinition) (i : String)
    (heq : effectiveTarget g2 u = effectiveTarget g1 u)
    (habs : assocGet (buildIndex store) (.str (effectiveTarget g1 u)) = none)
    (hmi : assocGet (buildIndex store) (.str (effectiveTarget gm u)) = some i)
    (hine : i ≠ "") :
    (runMerge store [g1, g2] u r).store
      = store ++ [(Nat.repr (lastIndex store + 1), to_shortcut g1 u),
                  (Nat.repr (lastIndex store + 2), to_shortcut g2 u)] ∧
    (runMerge store [gm] u true).store = setKey store i (to_shortcut gm u) ∧
    keys (setKey store i (to_shortcut gm u)) = keys store ∧
    (∀ (games : List GameDefinition) (r2 : Bool), ∃ tail,
      keys (runMerge store games u r2).store = keys store ++ tail) := by
  refine ⟨?_, ?_, ?_, ?_⟩
  · unfold runMerge
    rw [List.foldl_cons]
    have hstep1 : mergeStep (buildIndex store) u r
        { store := store, added := 0, last_index := lastIndex store, game_results := [] } g1
        = insertStep
            { store := store, added := 0, last_index := lastIndex store, game_results := [] }
            g1 u := by
      rw [mergeStep, habs]
    rw [hstep1]
    rw [List.foldl_cons]
    have hstep2 : mergeStep (buildIndex store) u r
        (insertStep
          { store := store, added := 0, last_index := lastIndex store, game_results := [] }
          g1 u) g2
        = insertStep
            (insertStep
              { store := store, added := 0, last_index := lastIndex store, game_results := [] }
              g1 u) g2 u := by
      rw [mergeStep, heq, habs]
    rw [hstep2, List.foldl_nil]
    have hnotin2 : Nat.repr (lastIndex store + 1 + 1)
        ∉ keys (store ++ [(Nat.repr (lastIndex store + 1), to_shortcut g1 u)]) := by
      rw [keys, List.map_append, List.mem_append]
      rintro (h1 | h1)
      · exact repr_fresh store _ (by omega) h1
      · simp only [List.map_cons, List.map_nil, List.mem_singleton] at h1
        have := repr_inj h1
        omega
    rw [insertStep, insertStep]
    simp only []
    rw [setKey_of_not_mem _ _ _ (repr_fresh store _ (Nat.lt_succ_self _))]
    rw [setKey_of_not_mem _ _ _ hnotin2, List.append_assoc]
    rfl
  · simp [runMerge, mergeStep, hmi, hine]
  · obtain ⟨e, hmem, _⟩ := buildIndex_value_mem store _ i hmi
    exact keys_setKey_of_mem store i (to_shortcut gm u)
      (List.mem_map.mpr ⟨(i, e), hmem, rfl⟩)
  · intro games r2
    have hsub : ∀ v k, assocGet (buildIndex store) v = some k → k ∈ keys store := by
      intro v k h
      obtain ⟨e, hmem, _⟩ := buildIndex_value_mem store v k h
      exact List.mem_map.mpr ⟨(k, e), hmem, rfl⟩
    obtain ⟨n, _, hkeys⟩ := mergeFold_keys (buildIndex store) u r2 store hsub games
      { store := store, added := 0, last_index := lastIndex store, game_results := [] }
      (fun k hk => hk) (fun m hm => repr_fresh store m hm)
    exact ⟨(List.range' (lastIndex store + 1) n).map Nat.repr, hkeys⟩

theorem index_built_once_witness :
    (effectiveTarget wgFresh2 false = effectiveTarget wgFresh false ∧
     assocGet (buildIndex wStore) (.str (effectiveTarget wgFresh false)) = none ∧
     assocGet (buildIndex wStore) (.str (effectiveTarget wgMatch false)) = some "0" ∧
     ("0" : String) ≠ "") ∧
    ((runMerge wStore [wgFresh, wgFresh2] false false).store
       = wStore ++ [(Nat.repr (lastIndex wStore + 1), to_shortcut wgFresh false),
                    (Nat.repr (lastIndex wStore + 2), to_shortcut wgFresh2 false)] ∧
     (runMerge wStore [wgMatch] false true).store
       = setKey wStore "0" (to_shortcut wgMatch false) ∧
     keys (setKey wStore "0" (to_shortcut wgMatch false)) = keys wStore ∧
     (∀ (games : List GameDefinition) (r2 : Bool), ∃ tail,
       keys (runMerge wStore games false r2).store = keys wStore ++ tail)) :=
  ⟨⟨by decide, by decide, by decide, by decide⟩,
   index_built_once wStore false false wgFresh wgFresh2 wgMatch "0"
     (by decide) (by decide) (by decide) (by decide)⟩

/-- C5 evidence: with the store file missing, `add_games_to_shortcut_file`
returns the abort message as its error component, but `main` discards
that return value and returns `0`, and the module-level `main()` call
discards even that, so the interpreter exits with status `0` — not the
nonzero status the spec requires for a store-not-found failure.  (A
commit-time I/O failure, by contrast, escapes as an uncaught exception
and does end the interpreter with a nonzero status.) -/
theorem missing_store_exit_status :
    (add_games_to_shortcut_file false wStore [wgFresh] false false false "P" "T").error
      = some (notFoundMsg "P") ∧
    (add_games_to_shortcut_file false wStore [wgFresh] false false false "P" "T").result
      = none ∧
    main_after_merge false wStore [wgFresh] false false false "P" "T" = 0 ∧
    script_exit (main_after_merge false wStore [wgFresh] false false false "P" "T") = 0 := by
  exact ⟨rfl, rfl, rfl, rfl⟩

/-- C8 evidence: in `filter_games` a non-numeric token is caught and
turned into a re-prompt, but a numeric index one past the table raises an
uncaught `IndexError` (fatal), and `0` silently resolves to the *last*
game via Python negative indexing; `prompt_for_steam_account` likewise
re-prompts on a too-large index but returns the last account for `0` and
raises an uncaught `IndexError` for a sufficiently negative index. -/
theorem selection_errors_can_be_fatal :
    filter_games [wgFresh, wgFresh2, wgMatch] "4" = FilterResult.indexError ∧
    filter_games [wgFresh, wgFresh2, wgMatch] "0" = FilterResult.ok [wgMatch] ∧
    filter_games [wgFresh, wgFresh2, wgMatch] "abc" = FilterResult.invalid ∧
    filter_games [wgFresh, wgFresh2, wgMatch] " 1 , 3 "
      = FilterResult.ok [wgFresh, wgMatch] ∧
    prompt_for_steam_account [⟨"11", "u1"⟩, ⟨"22", "u2"⟩] "0" = PromptResult.id "22" ∧
    prompt_for_steam_account [⟨"11", "u1"⟩, ⟨"22", "u2"⟩] "-5"
      = PromptResult.indexError ∧
    prompt_for_steam_account [⟨"11", "u1"⟩, ⟨"22", "u2"⟩] "9" = PromptResult.retry ∧
    prompt_for_steam_account [⟨"11", "u1"⟩, ⟨"22", "u2"⟩] "junk" = PromptResult.retry := by
  exact ⟨rfl, rfl, rfl, rfl, rfl, rfl, rfl, rfl⟩

/-- C9 evidence: with exactly one enumerated account, blank input, the
matching numeric id, a matching username, and even a non-matching
username all resolve to that account — but a *non-matching numeric* id
bypasses both the username rewrite and the prompt, and the final
`next(...)` raises an uncaught `StopIteration` instead of returning the
single account. -/
theorem single_account_resolution :
    resolve_account [⟨"123", "alice"⟩] "" ["anything"]
      = MainResolve.user ⟨"123", "alice"⟩ ∧
    resolve_account [⟨"123", "alice"⟩] "123" [] = MainResolve.user ⟨"123", "alice"⟩ ∧
    resolve_account [⟨"123", "alice"⟩] "alice" [] = MainResolve.user ⟨"123", "alice"⟩ ∧
    resolve_account [⟨"123", "alice"⟩] "zelda" ["x"]
      = MainResolve.user ⟨"123", "alice"⟩ ∧
    resolve_account [⟨"123", "alice"⟩] "999" [] = MainResolve.stopIteration := by
  exact ⟨rfl, rfl, rfl, rfl, rfl⟩
